import Mathlib

/-!
# powerloader: the command-line front end, the `Target` constructors and the JLAP patch loop

A shallow embedding of

* `src/src/cli/main.cpp`: `progress_callback`, `handle_download` and the way `main`
  turns the result of `handle_download` into the process status;
* `src/include/target.hpp`: the two inline constructors of `Target`;
* `src/src/cli/jlap.cpp`: the loop of `apply_jlap` that applies the patch entries.

A `std::string` is modelled by the list of its characters, a `std::map` by an
association list with unique keys, a C++ exception by the error side of `Except`,
and `exit` by an outcome of its own.
-/

namespace Powerloader

/-- A `std::string`: the sequence of its characters. -/
abbrev Str := List Char

/-! ## Helpers of `utils.hpp` and of the standard library -/

/-- Modelled from the spec: `contains` of `utils.hpp` is not under `src/`; it is taken to be
the substring test `s.find(sub) != npos`. -/
def contains : Str → Str → Bool
  | [], sub => sub.isEmpty
  | c :: cs, sub => sub.isPrefixOf (c :: cs) || contains cs sub

/-- Modelled from the spec: `split` of `utils.hpp` is not under `src/`; it is taken to cut
the input at every occurrence of the separator (the call sites pass the one-character
separator `":"`), keeping empty parts, so that the result is never empty. -/
def split : Str → Char → List Str
  | [], _ => [[]]
  | c :: cs, sep =>
    if c = sep then [] :: split cs sep
    else
      match split cs sep with
      | [] => [[c]]
      | h :: t => (c :: h) :: t

/-- The left-to-right split that stops after `max_split` cuts; `rsplit` is its mirror
image. -/
def splitMax : Str → Char → Nat → List Str
  | [], _, _ => [[]]
  | c :: cs, sep, max_split =>
    if c = sep ∧ 0 < max_split then [] :: splitMax cs sep (max_split - 1)
    else
      match splitMax cs sep max_split with
      | [] => [[c]]
      | h :: t => (c :: h) :: t

/-- Modelled from the spec: `rsplit` of `utils.hpp` is not under `src/`; it is taken to cut
the input at the last `max_split` occurrences of the separator (the call sites pass
`"/"` and `1`), the parts being listed in the order of the input. -/
def rsplit (input : Str) (sep : Char) (max_split : Nat) : List Str :=
  ((splitMax input.reverse sep max_split).map List.reverse).reverse

/-- The last element of a vector, `std::vector::back`. -/
def back (v : List Str) : Str := v.getLastD []

/-- The difference of two `std::size_t` values, which wraps around modulo `2 ^ 64`. -/
def size_sub (a b : Nat) : Nat := (a + 2 ^ 64 - b) % 2 ^ 64

/-- The value of `std::string::npos`. -/
def npos : Nat := 2 ^ 64 - 1

/-- The member `std::string::substr(pos, count)`: it throws `std::out_of_range` (here `none`)
when `pos` is past the end, and otherwise returns the characters from `pos` on, all of them
when `count` is `npos` and at most `count` of them otherwise. -/
def substr (s : Str) (pos count : Nat) : Option Str :=
  if s.length < pos then none
  else some (if count = npos then s.drop pos else (s.drop pos).take count)

/-! ## Association lists for `std::map` -/

/-- The member `std::map::find`, as the value stored under the key, if any. -/
def mfind {κ ν : Type} [DecidableEq κ] : List (κ × ν) → κ → Option ν
  | [], _ => none
  | (k', v) :: r, k => if k' = k then some v else mfind r k

/-- The assignment `m[k] = v`: the value under `k` is replaced, or the key is added. -/
def mset {κ ν : Type} [DecidableEq κ] : List (κ × ν) → κ → ν → List (κ × ν)
  | [], k, v => [(k, v)]
  | (k', v') :: r, k, v => if k' = k then (k, v) :: r else (k', v') :: mset r k v

/-! ## The data of `handle_download` -/

/-- Modelled from the spec: `URLHandler` of `url.hpp` is not under `src/`; of a parsed URL
`handle_download` reads the full URL string, the host and the path component. -/
structure URLHandler where
  url : Str
  host : Str
  path : Str

/-- A `Mirror` as `handle_download` builds it: from its base URL. -/
structure Mirror where
  url : Str
deriving DecidableEq

/-- The checksum kinds; `handle_download` uses `kSHA256` only. -/
inductive ChecksumType where
  | kSHA256
  | kSHA1
  | kMD5
deriving DecidableEq

/-- A declared checksum: the algorithm and the expected hexadecimal digest. -/
structure Checksum where
  type : ChecksumType
  checksum : Str
deriving DecidableEq

/-- Modelled from the spec: `DownloadTarget` of `download_target.hpp` is not under `src/`;
the fields are those of the data model, `progress_callback` recording whether an observer
was bound. -/
structure DownloadTarget where
  path : Str
  mirror_namespace : Str
  destination : Str
  resume : Bool
  checksums : List Checksum
  expected_size : Option Int
  progress_callback : Bool
deriving DecidableEq

/-- The constructor `DownloadTarget(path, mirror_namespace, destination)`: no checksum,
no expected size and no observer yet. -/
def DownloadTarget.new (path mirror_namespace destination : Str) : DownloadTarget :=
  { path := path, mirror_namespace := mirror_namespace, destination := destination,
    resume := false, checksums := [], expected_size := none, progress_callback := false }

/-- The part of `Context` that `handle_download` reads and writes: the mirrors it owns and
the map from a namespace to the mirrors registered under it. -/
structure Context where
  mirrors : List Mirror
  mirror_map : List (Str × List Mirror)
deriving DecidableEq

/-- The exceptions `handle_download` can raise. -/
inductive Err where
  | runtime_error (what : Str)
  | out_of_range
deriving DecidableEq

/-- How a call of `handle_download` ends: it returns a value, it ends the process through
`exit`, or an exception leaves it. -/
inductive Outcome where
  | returned (value : Int)
  | exited (status : Int)
  | threw (e : Err)
deriving DecidableEq

/-! ## `handle_download` -/

/-- The branch of the loop body for a specifier that contains `"://"` (lines 167-181). -/
def url_branch (uh : Str → URLHandler) (outfile : Str) (ctx : Context) (x : Str) :
    Except Err (Context × DownloadTarget) :=
  let url := (uh x).url
  let host := (uh x).host
  let path := (uh x).path
  -- `url.substr(0, url.size() - path.size())`: position 0 is never past the end
  let mirror_url := url.take (size_sub url.length path.length)
  let dst := if outfile.isEmpty then back (rsplit path '/' 1) else outfile
  let mm := if (mfind ctx.mirror_map host).isNone then mset ctx.mirror_map host []
    else ctx.mirror_map
  let mirrors := ctx.mirrors ++ [Mirror.mk mirror_url]
  let mm := mset mm host ((mfind mm host).getD [] ++ [Mirror.mk mirror_url])
  match substr path 1 npos with
  | none => .error .out_of_range
  | some p => .ok ({ mirrors := mirrors, mirror_map := mm }, DownloadTarget.new p host dst)

/-- The branch of the loop body for the other specifiers (lines 185-202). -/
def plain_branch (outfile dest_folder : Str) (ctx : Context) (x : Str) :
    Except Err (Context × DownloadTarget) :=
  match split x ':' with
  | [mirror, path] =>
    let dst := if outfile.isEmpty then back (rsplit path '/' 1) else outfile
    let dst := if !dest_folder.isEmpty then dest_folder ++ '/' :: dst else dst
    .ok (ctx, DownloadTarget.new path mirror dst)
  | _ => .error (.runtime_error "Not the correct number of : in the url".toList)

/-- The end of the loop body (lines 204-213): the options shared by every target. -/
def finish_target (resume : Bool) (sha_cli : Str) (filesize : Int) (t : DownloadTarget) :
    DownloadTarget :=
  let t := { t with resume := resume }
  let t := if !sha_cli.isEmpty then
      { t with checksums := t.checksums ++ [Checksum.mk .kSHA256 sha_cli] } else t
  let t := if filesize > 0 then { t with expected_size := some filesize } else t
  { t with progress_callback := true }

/-- The choice between the two branches (line 162) and the target the chosen one creates. -/
def new_target (uh : Str → URLHandler) (outfile dest_folder : Str) (ctx : Context) (x : Str) :
    Except Err (Context × DownloadTarget) :=
  if contains x "://".toList then url_branch uh outfile ctx x
  else plain_branch outfile dest_folder ctx x

/-- The loop of `handle_download` over the specifiers (lines 160-214): the context it
leaves and the targets it creates, or the exception that ends it. -/
def build_targets (uh : Str → URLHandler) (resume : Bool) (outfile sha_cli dest_folder : Str)
    (filesize : Int) : Context → List Str → Except Err (Context × List DownloadTarget)
  | ctx, [] => .ok (ctx, [])
  | ctx, x :: xs =>
    match new_target uh outfile dest_folder ctx x with
    | .error e => .error e
    | .ok (ctx1, t) =>
      match build_targets uh resume outfile sha_cli dest_folder filesize ctx1 xs with
      | .error e => .error e
      | .ok (ctx2, ts) => .ok (ctx2, finish_target resume sha_cli filesize t :: ts)

/-- The function `handle_download` (lines 143-232). `uh` is the `URLHandler` constructor,
`download` is `Downloader::download` as a function of the mirror map and of the targets
added, and `ctx` is the state of `Context::instance()` at the call. -/
def handle_download (uh : Str → URLHandler)
    (download : List (Str × List Mirror) → List DownloadTarget → Bool) (ctx : Context)
    (urls : List Str) (_mirrors : List Str) (resume : Bool) (outfile sha_cli dest_folder : Str)
    (filesize : Int) : Outcome :=
  match build_targets uh resume outfile sha_cli dest_folder filesize ctx urls with
  | .error e => .threw e
  | .ok (ctx1, targets) =>
    if download ctx1.mirror_map targets then .returned 0 else .exited 1

/-- The status of the process when `main` runs the `download` subcommand (lines 413-416):
the value `handle_download` returns or passes to `exit`; an exception that leaves `main`
ends the process without a status of its own. -/
def main_download (uh : Str → URLHandler)
    (download : List (Str × List Mirror) → List DownloadTarget → Bool) (ctx : Context)
    (du_files mirrors : List Str) (resume : Bool) (outfile sha_cli outdir : Str)
    (filesize : Int) : Option Int :=
  match handle_download uh download ctx du_files mirrors resume outfile sha_cli outdir
      filesize with
  | .returned v => some v
  | .exited s => some s
  | .threw _ => none

/-! ## The constructors of `Target` (target.hpp) -/

/-- Modelled from the spec: `DownloadState` of `enums.hpp` is not under `src/`; the states
are those of the data model, `kWAITING` being the one the constructors name. -/
inductive DownloadState where
  | kWAITING
  | kPREPARATION
  | kRUNNING
  | kFINISHED
  | kFAILED
deriving DecidableEq

/-- The members of `Target` that have a value once a constructor has run: those named in
a constructor's initialiser list and those with a default member initialiser. The other
members (`retries`, `writecb_received`, the header callback state, ...) are left
uninitialised by the constructors and are not modelled. `original_offset` is a
`std::ptrdiff_t`, a signed integer. -/
structure Target where
  target : DownloadTarget
  resume : Bool
  resume_count : Nat
  original_offset : Int
  state : DownloadState
  mirror : Option Mirror
  mirrors : Option (List Mirror)
  tried_mirrors : List Mirror
  used_mirror : Option Mirror
  range_fail : Bool
deriving DecidableEq

/-- The constructor `Target(DownloadTarget* dl_target)` (lines 36-42). -/
def Target.new (dl_target : DownloadTarget) : Target :=
  { target := dl_target, resume := dl_target.resume, resume_count := 0,
    original_offset := -1, state := .kWAITING, mirror := none, mirrors := none,
    tried_mirrors := [], used_mirror := none, range_fail := false }

/-- The constructor `Target(DownloadTarget* dl_target, mirrors)` (lines 44-52). -/
def Target.new_with_mirrors (dl_target : DownloadTarget) (mirrors : List Mirror) : Target :=
  { target := dl_target, resume := dl_target.resume, resume_count := 0,
    original_offset := -1, state := .kWAITING, mirror := none, mirrors := some mirrors,
    tried_mirrors := [], used_mirror := none, range_fail := false }

/-! ## `progress_callback` (main.cpp) -/

/-- The global `global_progress` (lines 21-27): `done` and `total` are `std::size_t`, and
`total_done` maps a target (a pointer, here a number naming the target) to a
`curl_off_t`. The map is kept in the order in which the targets were added; the code
only sums its values. -/
structure GlobalProgress where
  done : Nat
  total : Nat
  total_done : List (Nat × Int)
deriving DecidableEq

/-- The zero-initialised global. -/
def GlobalProgress.init : GlobalProgress := { done := 0, total := 0, total_done := [] }

/-- The conversion of a `curl_off_t` sum to `std::size_t`: the value modulo `2 ^ 64`. -/
def to_size_t (v : Int) : Nat := (v % 2 ^ 64).toNat

/-- The truncation of a number to `int`, towards zero. -/
def to_int (q : ℚ) : Int := if 0 ≤ q then ⌊q⌋ else ⌈q⌉

/-- The quotient `total_done` that the callback displays (lines 55-58), in exact rational
arithmetic: the sum of the values of the map divided by `global_progress.total`. -/
def fraction (g : GlobalProgress) : ℚ := ((g.total_done.map Prod.snd).sum : ℚ) / (g.total : ℚ)

/-- The position of the head of the bar (line 62): `bar_width * total_done` as an `int`,
with `bar_width = 50`. -/
def bar_pos (g : GlobalProgress) : Int := to_int (50 * fraction g)

/-- The percentage printed after the bar (line 72). -/
def percent (g : GlobalProgress) : Int := to_int (fraction g * 100)

/-- The function `progress_callback` (lines 36-76): the value returned and the state of
`global_progress` after the call. The text written to the standard output is described by
`fraction`, `bar_pos` and `percent` of the new state. -/
def progress_callback (g : GlobalProgress) (t : Nat) (total done : Int) :
    Int × GlobalProgress :=
  if total = 0 ∨ done = 0 then (0, g)
  else if (mfind g.total_done t).isNone then
    if total = 0 then (0, g)
    else (0, { g with total_done := mset g.total_done t done,
                      total := to_size_t ((g.total : Int) + total) })
  else (0, { g with total_done := mset g.total_done t done })

/-- One call of the callback: the target and the two numbers curl passes. -/
structure Call where
  t : Nat
  total : Int
  done : Int
deriving DecidableEq

/-- The state of `global_progress` after a sequence of calls. -/
def run_calls (g : GlobalProgress) (calls : List Call) : GlobalProgress :=
  calls.foldl (fun g c => (progress_callback g c.t c.total c.done).2) g

/-- A call is effective when neither number is zero: the others return at once. -/
def Call.effective (c : Call) : Bool := c.total ≠ 0 && c.done ≠ 0

/-- The effective calls of a sequence, in order. -/
def effective_calls (calls : List Call) : List Call := calls.filter Call.effective

/-- The targets registered by a sequence of calls: those with an effective call. -/
def registered (calls : List Call) : Finset Nat := ((effective_calls calls).map Call.t).toFinset

/-- The total passed in the first effective call of target `t` (0 if there is none). -/
def first_total (calls : List Call) (t : Nat) : Int :=
  (((effective_calls calls).find? (fun c => c.t = t)).map Call.total).getD 0

/-- The `done` passed in the latest effective call of target `t`, if there is one. -/
def latest_done (calls : List Call) (t : Nat) : Option Int :=
  ((effective_calls calls).reverse.find? (fun c => c.t = t)).map Call.done

/-! ## The patch loop of `apply_jlap` (jlap.cpp) -/

/-- A JSON value of the nlohmann library, an object being the list of its members. -/
inductive Json where
  | null
  | bool (b : Bool)
  | num (n : Int)
  | str (s : Str)
  | arr (items : List Json)
  | obj (members : List (Str × Json))

/-- The exceptions of the JSON library that the loop can raise. -/
inductive JErr where
  | type_error
  | patch_error (what : Str)
deriving DecidableEq

/-- The member `contains(key)`: true for an object that has the key, false otherwise. -/
def Json.contains (j : Json) (key : Str) : Bool :=
  match j with
  | .obj o => (mfind o key).isSome
  | _ => false

/-- The member access `j[key]` on an object: the value under the key, and `null` (which the
access would insert) when the key is absent. The loop only evaluates it on a value for
which `contains` has answered true, hence on an object. -/
def Json.at (j : Json) (key : Str) : Json :=
  match j with
  | .obj o => (mfind o key).getD .null
  | _ => .null

/-- The comparison `j == s` of a JSON value with a `std::string`: true exactly for the JSON
string with these characters. -/
def Json.eq_string (j : Json) (s : Str) : Bool :=
  match j with
  | .str t => decide (t = s)
  | _ => false

/-- The conversion of a JSON value to `std::string` in `repo_bsum = pf["to"]`: it throws
`type_error` unless the value is a JSON string. -/
def Json.get_string (j : Json) : Except JErr Str :=
  match j with
  | .str t => .ok t
  | _ => .error .type_error

/-- The record `Patch` (lines 14-18): a hash line and the JSON lines that follow it. -/
structure Patch where
  hash : Str
  patches : List Json

/-- The body of the inner loop (lines 88-97) for one entry `pf`, from the current hash and
document to the next ones. `patch` is `nlohmann::json::patch`, which throws on a patch it
cannot apply. -/
def apply_entry (patch : Json → Json → Except JErr Json) (repo_bsum : Str) (jrdata : Json)
    (pf : Json) : Except JErr (Str × Json) :=
  if pf.contains "from".toList then
    if (pf.at "from".toList).eq_string repo_bsum then
      match (pf.at "to".toList).get_string with
      | .error e => .error e
      | .ok to_hash =>
        match patch jrdata (pf.at "patch".toList) with
        | .error e => .error e
        | .ok d => .ok (to_hash, d)
    else .ok (repo_bsum, jrdata)
  else .ok (repo_bsum, jrdata)

/-- The inner loop (lines 86-98) over the entries of one `Patch`. -/
def apply_entries (patch : Json → Json → Except JErr Json) :
    Str → Json → List Json → Except JErr (Str × Json)
  | repo_bsum, jrdata, [] => .ok (repo_bsum, jrdata)
  | repo_bsum, jrdata, pf :: rest =>
    match apply_entry patch repo_bsum jrdata pf with
    | .error e => .error e
    | .ok (h, d) => apply_entries patch h d rest

/-- The outer loop of `apply_jlap` (lines 83-99): from the BLAKE2 sum of `repodata.json`,
the parsed document and the patches read from the file, to the final hash and the document
written to `final_repodata.json`, or the exception that ends the program. -/
def apply_jlap (patch : Json → Json → Except JErr Json) :
    Str → Json → List Patch → Except JErr (Str × Json)
  | repo_bsum, jrdata, [] => .ok (repo_bsum, jrdata)
  | repo_bsum, jrdata, p :: rest =>
    match apply_entries patch repo_bsum jrdata p.patches with
    | .error e => .error e
    | .ok (h, d) => apply_jlap patch h d rest

/-- The patch entries in file order: those of the first patch, then of the second, ... -/
def entries (patches : List Patch) : List Json := patches.flatMap Patch.patches

/-- An entry has a `"from"` field equal to the hash `h`. -/
def from_is (h : Str) (e : Json) : Bool :=
  e.contains "from".toList && (e.at "from".toList).eq_string h

/-- The `"to"` field of an entry as a string (empty when it is not a JSON string). -/
def to_of (e : Json) : Str :=
  match e.at "to".toList with
  | .str s => s
  | _ => []

/-- The entries of a list that are applied, starting with the current hash `h`: an entry
is applied when its `"from"` is the current hash, which then becomes its `"to"`. -/
def applied : Str → List Json → List Json
  | _, [] => []
  | h, e :: es => if from_is h e then e :: applied (to_of e) es else applied h es

/-- The hash after the entries `es` have been applied from the hash `h`: the `"to"` of the
last one, or `h` when there is none. -/
def final_hash (h : Str) (es : List Json) : Str :=
  match es.getLast? with
  | none => h
  | some e => to_of e

/-- A hash chain from `h`: the first entry has `"from"` equal to `h`, and each following
entry has `"from"` equal to the `"to"` of the one before. -/
def hash_chain : Str → List Json → Prop
  | _, [] => True
  | h, e :: es => from_is h e = true ∧ hash_chain (to_of e) es

/-- The document `patch(ek, ... patch(e1, doc) ...)`, or the first exception raised. -/
def patch_all (patch : Json → Json → Except JErr Json) : Json → List Json → Except JErr Json
  | doc, [] => .ok doc
  | doc, e :: es =>
    match patch doc (e.at "patch".toList) with
    | .error err => .error err
    | .ok d => patch_all patch d es

/-! ## The words of the claims about `handle_download` -/

/-- A specifier is a URL when it contains `"://"` (line 162). -/
def is_url (x : Str) : Bool := contains x "://".toList

/-- The specifiers without an explicit destination from which the loop creates a target:
a URL whose path component is not empty, or `namespace:path` with exactly one `':'`. -/
def specifier_ok (uh : Str → URLHandler) (x : Str) : Prop :=
  (is_url x = true ∧ (uh x).path ≠ []) ∨
  (is_url x = false ∧ ∃ ns path : Str, x = ns ++ ':' :: path ∧ ':' ∉ ns ∧ ':' ∉ path)

/-- The file name `name` is the `-o` value when that is not empty, and otherwise what
follows the last `'/'` of `path` (all of `path` when it has no `'/'`). -/
def is_file_name (outfile path name : Str) : Prop :=
  (outfile ≠ [] ∧ name = outfile) ∨
  (outfile = [] ∧
    ((∃ a : Str, path = a ++ '/' :: name ∧ '/' ∉ name) ∨ ('/' ∉ path ∧ name = path)))

/-- What the fourth claim says of the target `t` created for the specifier `x`. -/
def destination_inferred (uh : Str → URLHandler) (outfile dest_folder : Str) (x : Str)
    (t : DownloadTarget) : Prop :=
  (is_url x = true → ∃ name, is_file_name outfile (uh x).path name ∧ t.destination = name) ∧
  (is_url x = false → ∀ ns path : Str, x = ns ++ ':' :: path → ':' ∉ ns → ':' ∉ path →
    t.mirror_namespace = ns ∧ t.path = path ∧
    ∃ name, is_file_name outfile path name ∧
      t.destination = if dest_folder = [] then name else dest_folder ++ '/' :: name)

/-- The `URLHandler` of the examples: every specifier is read as the URL
`http://test.com/download.tar.gz` of the comment in `handle_download`. -/
def uh_download : Str → URLHandler := fun _ =>
  { url := "http://test.com/download.tar.gz".toList, host := "test.com".toList,
    path := "/download.tar.gz".toList }

/-- The `URLHandler` of the example with a query: every specifier is read as the URL
`http://test.com/a/b?x=1`, whose path component is `/a/b`. -/
def uh_query : Str → URLHandler := fun _ =>
  { url := "http://test.com/a/b?x=1".toList, host := "test.com".toList,
    path := "/a/b".toList }

/-- The context before any mirror is registered. -/
def Context.empty : Context := { mirrors := [], mirror_map := [] }

/-! ## The words of the claim about `progress_callback` -/

/-- Every call passes the same total for its target and a `done` with
`0 < done <= total`. -/
def constant_totals (calls : List Call) : Prop :=
  ∀ c ∈ calls, 0 < c.done ∧ c.done ≤ c.total ∧
    ∀ c1 ∈ calls, c1.t = c.t → c1.total = c.total

/-- Three targets of `2 ^ 63 - 1` bytes each, every one reported complete. -/
def calls_overflow : List Call :=
  [⟨1, 9223372036854775807, 9223372036854775807⟩,
   ⟨2, 9223372036854775807, 9223372036854775807⟩,
   ⟨3, 9223372036854775807, 9223372036854775807⟩]

/-- Two targets of 100 and 50 bytes; the first is reported twice. -/
def calls_example : List Call := [⟨1, 100, 10⟩, ⟨2, 50, 50⟩, ⟨1, 100, 60⟩]

/-! ## The examples of the claim about `apply_jlap` -/

/-- The JSON patch of the example: it replaces the document by the patch value. -/
def patch_replace : Json → Json → Except JErr Json := fun _ p => .ok p

/-- A patch entry with the fields `"from"`, `"to"` and `"patch"`. -/
def entry (h_from h_to : Str) (p : Json) : Json :=
  .obj [("from".toList, .str h_from), ("to".toList, .str h_to), ("patch".toList, p)]

/-- The patches of the example: an entry from `h0` to `h1`, an entry whose `"from"` is
another hash, an entry without `"from"`, and an entry from `h1` to `h2`. -/
def patches_example : List Patch :=
  [{ hash := "iv".toList,
     patches := [entry "h0".toList "h1".toList (.num 1), entry "hx".toList "hy".toList (.num 7),
       .obj [("url".toList, .str "repodata.json".toList)],
       entry "h1".toList "h2".toList (.num 2)] }]

/-! ## Properties of the string helpers -/

theorem split_of_not_mem (sep : Char) (s : Str) (h : sep ∉ s) : split s sep = [s] := by
  induction s with
  | nil => rfl
  | cons c cs ih =>
    have hc : c ≠ sep := fun e => h (by simp [e])
    have hcs : sep ∉ cs := fun m => h (List.mem_cons_of_mem _ m)
    simp [split, hc, ih hcs]

theorem split_append_sep (sep : Char) (a b : Str) (h : sep ∉ a) :
    split (a ++ sep :: b) sep = a :: split b sep := by
  induction a with
  | nil => simp [split]
  | cons c cs ih =>
    have hc : c ≠ sep := fun e => h (by simp [e])
    have hcs : sep ∉ cs := fun m => h (List.mem_cons_of_mem _ m)
    simp [split, hc, ih hcs]

theorem splitMax_zero (sep : Char) (s : Str) : splitMax s sep 0 = [s] := by
  induction s with
  | nil => rfl
  | cons c cs ih => simp [splitMax, ih]

theorem splitMax_of_not_mem (sep : Char) (n : Nat) (s : Str) (h : sep ∉ s) :
    splitMax s sep n = [s] := by
  induction s with
  | nil => rfl
  | cons c cs ih =>
    have hc : c ≠ sep := fun e => h (by simp [e])
    have hcs : sep ∉ cs := fun m => h (List.mem_cons_of_mem _ m)
    simp [splitMax, hc, ih hcs]

theorem splitMax_append_sep (sep : Char) (n : Nat) (a b : Str) (h : sep ∉ a) :
    splitMax (a ++ sep :: b) sep (n + 1) = a :: splitMax b sep n := by
  induction a with
  | nil => simp [splitMax]
  | cons c cs ih =>
    have hc : c ≠ sep := fun e => h (by simp [e])
    have hcs : sep ∉ cs := fun m => h (List.mem_cons_of_mem _ m)
    simp [splitMax, hc, ih hcs]

/-- Without a separator in it, the last part of `rsplit p sep 1` is `p` itself. -/
theorem back_rsplit_of_not_mem (sep : Char) (p : Str) (h : sep ∉ p) :
    back (rsplit p sep 1) = p := by
  have h1 : sep ∉ p.reverse := by simpa using h
  simp [back, rsplit, splitMax_of_not_mem sep 1 _ h1]

/-- The last part of `rsplit p sep 1` is what follows the last separator of `p`. -/
theorem back_rsplit_append_sep (sep : Char) (a b : Str) (h : sep ∉ b) :
    back (rsplit (a ++ sep :: b) sep 1) = b := by
  have h1 : sep ∉ b.reverse := by simpa using h
  have h2 : (a ++ sep :: b).reverse = b.reverse ++ sep :: a.reverse := by simp
  simp [back, rsplit, h2, splitMax_append_sep sep 0 _ _ h1, splitMax_zero]

/-- A string with a separator in it splits at the last one. -/
theorem exists_last_sep (sep : Char) (p : Str) (h : sep ∈ p) :
    ∃ a b : Str, p = a ++ sep :: b ∧ sep ∉ b := by
  have h1 : sep ∈ p.reverse := by simpa using h
  obtain ⟨u, v, huv, hu⟩ := List.eq_append_cons_of_mem h1
  refine ⟨v.reverse, u.reverse, ?_, by simpa using hu⟩
  have := congrArg List.reverse huv
  simpa using this

/-- The name `handle_download` infers from a path is what follows its last `'/'`. -/
theorem inferred_is_file_name (outfile path : Str) :
    is_file_name outfile path (if outfile.isEmpty then back (rsplit path '/' 1) else outfile) := by
  cases outfile with
  | cons c cs => exact Or.inl ⟨by simp, by simp⟩
  | nil =>
    refine Or.inr ⟨rfl, ?_⟩
    by_cases h : '/' ∈ path
    · obtain ⟨a, b, hab, hb⟩ := exists_last_sep '/' path h
      refine Or.inl ⟨a, ?_, ?_⟩
      · simp [hab, back_rsplit_append_sep '/' a b hb]
      · simpa [hab, back_rsplit_append_sep '/' a b hb] using hb
    · exact Or.inr ⟨h, by simp [back_rsplit_of_not_mem '/' path h]⟩

/-! ## Properties of the association lists -/

theorem mfind_mset {κ ν : Type} [DecidableEq κ] (m : List (κ × ν)) (k k' : κ) (v : ν) :
    mfind (mset m k v) k' = if k = k' then some v else mfind m k' := by
  induction m with
  | nil => simp [mset, mfind]
  | cons p r ih =>
    obtain ⟨a, b⟩ := p
    by_cases h : a = k
    · subst h
      by_cases h2 : a = k' <;> simp [mset, mfind, h2]
    · by_cases h2 : a = k'
      · subst h2
        simp [mset, mfind, h, Ne.symm h]
      · simp [mset, mfind, h, h2, ih]

theorem mfind_eq_none_iff {κ ν : Type} [DecidableEq κ] (m : List (κ × ν)) (k : κ) :
    mfind m k = none ↔ k ∉ m.map Prod.fst := by
  induction m with
  | nil => simp [mfind]
  | cons p r ih =>
    obtain ⟨a, b⟩ := p
    by_cases h : a = k
    · simp [mfind, h]
    · simp [mfind, h, ih, Ne.symm h]

theorem keys_mset {κ ν : Type} [DecidableEq κ] (m : List (κ × ν)) (k : κ) (v : ν) :
    (mset m k v).map Prod.fst =
      if k ∈ m.map Prod.fst then m.map Prod.fst else m.map Prod.fst ++ [k] := by
  induction m with
  | nil => simp [mset]
  | cons p r ih =>
    obtain ⟨a, b⟩ := p
    by_cases h : a = k
    · simp [mset, h]
    · by_cases h2 : k ∈ r.map Prod.fst
      · simp [mset, h, ih, h2]
      · simp [mset, h, ih, h2, Ne.symm h]

theorem nodup_keys_mset {κ ν : Type} [DecidableEq κ] (m : List (κ × ν)) (k : κ) (v : ν)
    (h : (m.map Prod.fst).Nodup) : ((mset m k v).map Prod.fst).Nodup := by
  rw [keys_mset]
  split_ifs with hk
  · exact h
  · exact List.Nodup.append h (List.nodup_singleton k) (by simpa using hk)

theorem sum_values (m : List (Nat × Int)) (h : (m.map Prod.fst).Nodup) :
    (m.map Prod.snd).sum = ∑ k in (m.map Prod.fst).toFinset, (mfind m k).getD 0 := by
  induction m with
  | nil => simp
  | cons p r ih =>
    obtain ⟨a, b⟩ := p
    simp only [List.map_cons, List.nodup_cons] at h
    have ha : a ∉ (r.map Prod.fst).toFinset := by simpa using h.1
    simp only [List.map_cons, List.sum_cons, List.toFinset_cons]
    rw [Finset.sum_insert ha, ih h.2]
    have h1 : (mfind ((a, b) :: r) a).getD 0 = b := by simp [mfind]
    rw [h1]
    congr 1
    apply Finset.sum_congr rfl
    intro k hk
    have hne : a ≠ k := fun e => ha (e ▸ hk)
    simp [mfind, hne]


/-! ## Properties of the loop of `handle_download` -/

theorem finish_target_path (resume : Bool) (sha_cli : Str) (filesize : Int)
    (t : DownloadTarget) :
    (finish_target resume sha_cli filesize t).path = t.path ∧
    (finish_target resume sha_cli filesize t).mirror_namespace = t.mirror_namespace ∧
    (finish_target resume sha_cli filesize t).destination = t.destination := by
  unfold finish_target
  split_ifs <;> simp

theorem finish_target_expected_size (resume : Bool) (sha_cli : Str) (filesize : Int)
    (t : DownloadTarget) :
    (finish_target resume sha_cli filesize t).expected_size =
      if filesize > 0 then some filesize else t.expected_size := by
  unfold finish_target
  split_ifs <;> simp

/-- The target created for a URL whose path component is not empty. -/
theorem new_target_url (uh : Str → URLHandler) (outfile dest_folder : Str) (ctx : Context)
    (x : Str) (h : is_url x = true) (hp : (uh x).path ≠ []) :
    ∃ ctx1, new_target uh outfile dest_folder ctx x =
      .ok (ctx1, DownloadTarget.new (uh x).path.tail (uh x).host
        (if outfile.isEmpty then back (rsplit (uh x).path '/' 1) else outfile)) := by
  unfold is_url at h
  obtain ⟨c, p, hcp⟩ := List.exists_cons_of_ne_nil hp
  have hs : substr (uh x).path 1 npos = some p := by simp [substr, hcp]
  rw [new_target, if_pos h]
  simp only [url_branch, hs]
  have ht : (uh x).path.tail = p := by simp [hcp]
  rw [ht]
  exact ⟨_, rfl⟩

/-- The target created for `namespace:path` with exactly one `':'`. -/
theorem new_target_plain (uh : Str → URLHandler) (outfile dest_folder : Str) (ctx : Context)
    (x ns path : Str) (h : is_url x = false) (hx : x = ns ++ ':' :: path) (hns : ':' ∉ ns)
    (hpath : ':' ∉ path) :
    new_target uh outfile dest_folder ctx x =
      .ok (ctx, DownloadTarget.new path ns
        (if dest_folder = [] then
          (if outfile.isEmpty then back (rsplit path '/' 1) else outfile)
        else dest_folder ++ '/' ::
          (if outfile.isEmpty then back (rsplit path '/' 1) else outfile))) := by
  unfold is_url at h
  have hsplit : split x ':' = [ns, path] := by
    rw [hx, split_append_sep ':' ns path hns, split_of_not_mem ':' path hpath]
  rw [new_target, if_neg (by rw [h]; exact Bool.false_ne_true)]
  simp only [plain_branch, hsplit]
  by_cases hd : dest_folder = [] <;> simp [hd]

/-- The loop creates one target for each specifier, in order, when the body creates one
for each of them; `P` is any property of the target the body creates. -/
theorem build_targets_of_forall (uh : Str → URLHandler) (resume : Bool)
    (outfile sha_cli dest_folder : Str) (filesize : Int) (P : Str → DownloadTarget → Prop)
    (urls : List Str)
    (h : ∀ x ∈ urls, ∀ c, ∃ c1 t,
      new_target uh outfile dest_folder c x = .ok (c1, t) ∧ P x t)
    (ctx : Context) :
    ∃ ctx1 targets,
      build_targets uh resume outfile sha_cli dest_folder filesize ctx urls
        = .ok (ctx1, targets) ∧
      List.Forall₂ (fun x t => ∃ t0, P x t0 ∧ t = finish_target resume sha_cli filesize t0)
        urls targets := by
  induction urls generalizing ctx with
  | nil => exact ⟨ctx, [], rfl, List.Forall₂.nil⟩
  | cons x xs ih =>
    obtain ⟨c1, t, hb, hP⟩ := h x (List.mem_cons_self _ _) ctx
    obtain ⟨c2, ts, hr, hall⟩ := ih (fun y hy => h y (List.mem_cons_of_mem _ hy)) c1
    refine ⟨c2, finish_target resume sha_cli filesize t :: ts, ?_, ?_⟩
    · simp [build_targets, hb, hr]
    · exact List.Forall₂.cons ⟨t, hP, rfl⟩ hall

/-- Every target the loop creates has gone through the end of the loop body. -/
theorem build_targets_finished (uh : Str → URLHandler) (resume : Bool)
    (outfile sha_cli dest_folder : Str) (filesize : Int) (urls : List Str) (ctx ctx1 : Context)
    (targets : List DownloadTarget)
    (h : build_targets uh resume outfile sha_cli dest_folder filesize ctx urls =
      .ok (ctx1, targets)) :
    List.Forall₂ (fun x t => ∃ c c1 t0, new_target uh outfile dest_folder c x = .ok (c1, t0) ∧
      t = finish_target resume sha_cli filesize t0) urls targets := by
  induction urls generalizing ctx targets with
  | nil =>
    simp only [build_targets, Except.ok.injEq, Prod.mk.injEq] at h
    rw [← h.2]
    exact List.Forall₂.nil
  | cons x xs ih =>
    unfold build_targets at h
    cases hb : new_target uh outfile dest_folder ctx x with
    | error e => simp [hb] at h
    | ok r =>
      obtain ⟨c1, t0⟩ := r
      simp only [hb] at h
      cases hr : build_targets uh resume outfile sha_cli dest_folder filesize c1 xs with
      | error e => simp [hr] at h
      | ok r2 =>
        obtain ⟨c2, ts⟩ := r2
        simp only [hr, Except.ok.injEq, Prod.mk.injEq] at h
        rw [← h.2]
        rw [h.1] at hr
        exact List.Forall₂.cons ⟨ctx, c1, t0, hb, rfl⟩ (ih c1 ts hr)

/-- The body of the loop creates its target with the constructor, which sets no expected
size. -/
theorem new_target_expected_size (uh : Str → URLHandler) (outfile dest_folder : Str)
    (ctx ctx1 : Context) (x : Str) (t : DownloadTarget)
    (h : new_target uh outfile dest_folder ctx x = .ok (ctx1, t)) : t.expected_size = none := by
  unfold new_target at h
  split_ifs at h
  · unfold url_branch at h
    simp only at h
    split at h
    · simp at h
    · simp only [Except.ok.injEq, Prod.mk.injEq] at h
      rw [← h.2]; rfl
  · unfold plain_branch at h
    split at h
    · simp only [Except.ok.injEq, Prod.mk.injEq] at h
      rw [← h.2]; rfl
    · simp at h

/-- The difference of two sizes is the exact difference when none of them overflows. -/
theorem size_sub_of_le (a b : Nat) (hb : b ≤ a) (ha : a < 2 ^ 64) : size_sub a b = a - b := by
  unfold size_sub
  have h1 : a + 2 ^ 64 - b = (a - b) + 2 ^ 64 := by omega
  rw [h1, Nat.add_mod_right, Nat.mod_eq_of_lt (by omega)]

/-- The URL branch when the URL string ends with its path component, which begins with
`'/'`: the mirror created has the part of the URL before the path as its base URL, it is
the last mirror of the context and the last one registered under the host, and the target
has the host as namespace and the path without its leading `'/'` as path, so that base
URL, `"/"` and target path give the URL back. -/
theorem url_branch_origin (uh : Str → URLHandler) (outfile : Str) (ctx : Context) (x : Str)
    (base p : Str) (hurl : (uh x).url = base ++ '/' :: p) (hpath : (uh x).path = '/' :: p)
    (hlen : (uh x).url.length < 2 ^ 64) :
    ∃ ctx1 t, url_branch uh outfile ctx x = .ok (ctx1, t) ∧
      ctx1.mirrors = ctx.mirrors ++ [Mirror.mk base] ∧
      mfind ctx1.mirror_map (uh x).host =
        some ((mfind ctx.mirror_map (uh x).host).getD [] ++ [Mirror.mk base]) ∧
      t.mirror_namespace = (uh x).host ∧ t.path = p ∧
      base ++ '/' :: t.path = (uh x).url := by
  have hs : substr (uh x).path 1 npos = some p := by simp [substr, hpath]
  have hsz : size_sub (uh x).url.length (uh x).path.length = base.length := by
    rw [size_sub_of_le _ _ (by rw [hurl, hpath]; simp) hlen, hurl, hpath]
    simp
  have htake : (uh x).url.take base.length = base := by
    rw [hurl]; simp
  simp only [url_branch, hs, hsz, htake]
  refine ⟨_, _, rfl, rfl, ?_, rfl, rfl, hurl.symm⟩
  simp only [mfind_mset, if_true]
  cases hm : mfind ctx.mirror_map (uh x).host with
  | none => simp [mfind_mset]
  | some ms => simp [hm]

/-- The URL branch at the URL of the comment in `handle_download`: the mirror is
`http://test.com` and the target path `download.tar.gz`. -/
theorem url_branch_origin_witness :
    ∃ ctx1 t, url_branch uh_download [] Context.empty "http://test.com/download.tar.gz".toList
        = .ok (ctx1, t) ∧
      ctx1.mirrors = Context.empty.mirrors ++ [Mirror.mk "http://test.com".toList] ∧
      mfind ctx1.mirror_map "test.com".toList =
        some ((mfind Context.empty.mirror_map "test.com".toList).getD [] ++
          [Mirror.mk "http://test.com".toList]) ∧
      t.mirror_namespace = "test.com".toList ∧ t.path = "download.tar.gz".toList ∧
      "http://test.com".toList ++ '/' :: t.path = "http://test.com/download.tar.gz".toList :=
  url_branch_origin uh_download [] Context.empty "http://test.com/download.tar.gz".toList
    "http://test.com".toList "download.tar.gz".toList rfl rfl (by decide)

/-! ## The claims about `handle_download` -/

/-- C1: `handle_download` returns 0 exactly when the loop has built a batch and
`Downloader::download` has returned true for it; when `download` returns false the process
is ended with status 1 (so 0 is not returned); and the status of the `download`
subcommand is 0 exactly in the first case. -/
theorem handle_download_status (uh : Str → URLHandler)
    (download : List (Str × List Mirror) → List DownloadTarget → Bool) (ctx : Context)
    (urls mirrors : List Str) (resume : Bool) (outfile sha_cli dest_folder : Str)
    (filesize : Int) :
    (handle_download uh download ctx urls mirrors resume outfile sha_cli dest_folder filesize
        = .returned 0 ↔
      ∃ ctx1 targets,
        build_targets uh resume outfile sha_cli dest_folder filesize ctx urls
          = .ok (ctx1, targets) ∧ download ctx1.mirror_map targets = true) ∧
    (∀ ctx1 targets,
      build_targets uh resume outfile sha_cli dest_folder filesize ctx urls
          = .ok (ctx1, targets) →
      download ctx1.mirror_map targets = false →
      handle_download uh download ctx urls mirrors resume outfile sha_cli dest_folder filesize
        = .exited 1) ∧
    (main_download uh download ctx urls mirrors resume outfile sha_cli dest_folder filesize
        = some 0 ↔
      ∃ ctx1 targets,
        build_targets uh resume outfile sha_cli dest_folder filesize ctx urls
          = .ok (ctx1, targets) ∧ download ctx1.mirror_map targets = true) := by
  unfold main_download handle_download
  cases hb : build_targets uh resume outfile sha_cli dest_folder filesize ctx urls with
  | error e => simp
  | ok r =>
    obtain ⟨c1, ts⟩ := r
    cases hd : download c1.mirror_map ts
    · simp only [hd, Except.ok.injEq, Prod.mk.injEq]
      refine ⟨?_, ?_, ?_⟩
      · constructor
        · intro h; cases h
        · rintro ⟨a, b, ⟨h1, h2⟩, h3⟩
          subst h1; subst h2
          rw [hd] at h3; cases h3
      · intro _ _ _ _; rfl
      · constructor
        · intro h; cases h
        · rintro ⟨a, b, ⟨h1, h2⟩, h3⟩
          subst h1; subst h2
          rw [hd] at h3; cases h3
    · simp only [hd, Except.ok.injEq, Prod.mk.injEq]
      refine ⟨?_, ?_, ?_⟩
      · exact ⟨fun _ => ⟨c1, ts, ⟨rfl, rfl⟩, hd⟩, fun _ => rfl⟩
      · rintro a b ⟨h1, h2⟩ h3
        subst h1; subst h2
        rw [hd] at h3; cases h3
      · exact ⟨fun _ => ⟨c1, ts, ⟨rfl, rfl⟩, hd⟩, fun _ => rfl⟩

/-- C1, at an input: one URL, and a `download` that succeeds; the status is 0. With a
`download` that fails the call ends the process with status 1. -/
theorem handle_download_status_example :
    handle_download uh_download (fun _ _ => true) Context.empty
      ["http://test.com/download.tar.gz".toList] [] false [] [] [] (-1) = .returned 0 ∧
    handle_download uh_download (fun _ _ => false) Context.empty
      ["http://test.com/download.tar.gz".toList] [] false [] [] [] (-1) = .exited 1 := by
  decide

/-- C2, at the failing input: for the URL `http://test.com/a/b?x=1`, with path component
`/a/b`, the mirror registered under the host `test.com` has the base URL
`http://test.com/a/b`, not the origin `http://test.com`, and the target's path is `a/b`:
base URL, `"/"` and target path give `http://test.com/a/b/a/b`. -/
theorem mirror_of_url_with_query :
    (build_targets uh_query false [] [] [] (-1) Context.empty
        ["http://test.com/a/b?x=1".toList]).toOption.map
      (fun r => (r.1.mirror_map, r.2.map (fun t => (t.mirror_namespace, t.path)))) =
    some ([("test.com".toList, [Mirror.mk "http://test.com/a/b".toList])],
      [("test.com".toList, "a/b".toList)]) := by
  decide

/-- C3, at the failing input: the specifier
`conda-forge:linux-64/xtensor-123.tar.bz2:xtensor.tar.bz2` of the documented form
`namespace:path:dest` makes `handle_download` raise `runtime_error`; no target is
created. -/
theorem three_part_specifier_throws (uh : Str → URLHandler)
    (download : List (Str × List Mirror) → List DownloadTarget → Bool) (ctx : Context)
    (mirrors : List Str) (resume : Bool) (outfile sha_cli dest_folder : Str) (filesize : Int) :
    handle_download uh download ctx
      ["conda-forge:linux-64/xtensor-123.tar.bz2:xtensor.tar.bz2".toList] mirrors resume
      outfile sha_cli dest_folder filesize =
    .threw (.runtime_error "Not the correct number of : in the url".toList) := by
  have hc : contains "conda-forge:linux-64/xtensor-123.tar.bz2:xtensor.tar.bz2".toList
      "://".toList = false := by decide
  have hs : split "conda-forge:linux-64/xtensor-123.tar.bz2:xtensor.tar.bz2".toList ':' =
      ["conda-forge".toList, "linux-64/xtensor-123.tar.bz2".toList,
        "xtensor.tar.bz2".toList] := by decide
  have hn : new_target uh outfile dest_folder ctx
      "conda-forge:linux-64/xtensor-123.tar.bz2:xtensor.tar.bz2".toList =
      .error (.runtime_error "Not the correct number of : in the url".toList) := by
    rw [new_target, if_neg (by rw [hc]; exact Bool.false_ne_true)]
    simp only [plain_branch, hs]
  simp only [handle_download, build_targets, hn]

/-- C4: when every specifier is a URL (with a path component) or `namespace:path` with
exactly one `':'`, the loop creates one target for each, in order; the destination of the
target of a URL is the file name, that of `namespace:path` is the file name behind the
output directory if there is one, the file name being the `-o` value when that is not
empty and otherwise what follows the last `'/'` of the path (the whole path when it has no
`'/'`); and for `namespace:path` the namespace is the part before the `':'` and the path
the part after it. -/
theorem destination_of_specifier (uh : Str → URLHandler) (resume : Bool)
    (outfile sha_cli dest_folder : Str) (filesize : Int) (ctx : Context) (urls : List Str)
    (h : ∀ x ∈ urls, specifier_ok uh x) :
    ∃ ctx1 targets,
      build_targets uh resume outfile sha_cli dest_folder filesize ctx urls
        = .ok (ctx1, targets) ∧
      List.Forall₂ (destination_inferred uh outfile dest_folder) urls targets := by
  have hbody : ∀ x ∈ urls, ∀ c, ∃ c1 t,
      new_target uh outfile dest_folder c x = .ok (c1, t) ∧
      destination_inferred uh outfile dest_folder x t := by
    intro x hx c
    rcases h x hx with ⟨hu, hp⟩ | ⟨hu, ns, path, hx1, hns, hpath⟩
    · obtain ⟨c1, hc1⟩ := new_target_url uh outfile dest_folder c x hu hp
      refine ⟨c1, _, hc1, ?_, ?_⟩
      · intro _
        exact ⟨_, inferred_is_file_name outfile (uh x).path, rfl⟩
      · intro hf; rw [hu] at hf; cases hf
    · refine ⟨c, _, new_target_plain uh outfile dest_folder c x ns path hu hx1 hns hpath,
        ?_, ?_⟩
      · intro hf; rw [hu] at hf; cases hf
      · intro _ ns1 path1 hx2 hns1 hpath1
        have hsp : split x ':' = [ns1, path1] := by
          rw [hx2, split_append_sep ':' ns1 path1 hns1, split_of_not_mem ':' path1 hpath1]
        have hsp0 : split x ':' = [ns, path] := by
          rw [hx1, split_append_sep ':' ns path hns, split_of_not_mem ':' path hpath]
        rw [hsp0] at hsp
        simp only [List.cons.injEq, and_true] at hsp
        obtain ⟨e1, e2⟩ := hsp
        subst e1; subst e2
        exact ⟨rfl, rfl, _, inferred_is_file_name outfile path, rfl⟩
  obtain ⟨ctx1, targets, hb, hall⟩ := build_targets_of_forall uh resume outfile sha_cli
    dest_folder filesize (destination_inferred uh outfile dest_folder) urls hbody ctx
  refine ⟨ctx1, targets, hb, hall.imp ?_⟩
  rintro x t ⟨t0, hP, rfl⟩
  obtain ⟨e1, e2, e3⟩ := finish_target_path resume sha_cli filesize t0
  unfold destination_inferred at hP ⊢
  rw [e1, e2, e3]
  exact hP

/-- C4, at an input: a URL and a `namespace:path` specifier, without `-o` and with the
output directory `out`. -/
theorem destination_of_specifier_witness :
    ∃ ctx1 targets,
      build_targets uh_download false [] [] "out".toList (-1) Context.empty
        ["http://test.com/download.tar.gz".toList,
          "conda-forge:linux-64/xtensor-123.tar.bz2".toList] = .ok (ctx1, targets) ∧
      List.Forall₂ (destination_inferred uh_download [] "out".toList)
        ["http://test.com/download.tar.gz".toList,
          "conda-forge:linux-64/xtensor-123.tar.bz2".toList] targets :=
  destination_of_specifier uh_download false [] [] "out".toList (-1) Context.empty
    ["http://test.com/download.tar.gz".toList,
      "conda-forge:linux-64/xtensor-123.tar.bz2".toList]
    (by
      intro x hx
      simp only [List.mem_cons, List.mem_singleton, List.not_mem_nil, or_false] at hx
      rcases hx with rfl | rfl
      · exact Or.inl ⟨by decide, by decide⟩
      · exact Or.inr ⟨by decide, "conda-forge".toList, "linux-64/xtensor-123.tar.bz2".toList,
          by decide, by decide, by decide⟩)

/-- C5, at the failing input: with the output directory `out` and no `-o`, the target of
the URL `http://test.com/download.tar.gz` has the destination `download.tar.gz`, without
the directory, while the target of `conda-forge:linux-64/xtensor-123.tar.bz2` has the
destination `out/xtensor-123.tar.bz2`. -/
theorem url_destination_without_outdir :
    (build_targets uh_download false [] [] "out".toList (-1) Context.empty
        ["http://test.com/download.tar.gz".toList,
          "conda-forge:linux-64/xtensor-123.tar.bz2".toList]).toOption.map
      (fun r => r.2.map DownloadTarget.destination) =
    some ["download.tar.gz".toList, "out/xtensor-123.tar.bz2".toList] := by
  decide

/-- C6, as amended: every target the loop creates has `expected_size` equal to the `-i`
value when that is positive, and has no `expected_size` when it is zero or negative, the
default -1 included. -/
theorem expected_size_of_filesize (uh : Str → URLHandler) (resume : Bool)
    (outfile sha_cli dest_folder : Str) (filesize : Int) (ctx ctx1 : Context) (urls : List Str)
    (targets : List DownloadTarget)
    (h : build_targets uh resume outfile sha_cli dest_folder filesize ctx urls
      = .ok (ctx1, targets)) :
    targets.length = urls.length ∧
    ∀ t ∈ targets, t.expected_size = if 0 < filesize then some filesize else none := by
  have hall := build_targets_finished uh resume outfile sha_cli dest_folder filesize urls ctx
    ctx1 targets h
  refine ⟨hall.length_eq.symm, ?_⟩
  clear h
  induction hall with
  | nil => intro t ht; cases ht
  | cons hxt _ ih =>
    intro t ht
    rcases List.mem_cons.mp ht with rfl | ht1
    · obtain ⟨c, c1, t0, hn, rfl⟩ := hxt
      rw [finish_target_expected_size,
        new_target_expected_size uh outfile dest_folder c c1 _ t0 hn]
    · exact ih t ht1

/-- C6, at an input: `-i 5` and one specifier; the target has `expected_size` 5. -/
theorem expected_size_of_filesize_witness :
    build_targets uh_download false [] [] [] 5 Context.empty
        ["conda-forge:linux-64/xtensor-123.tar.bz2".toList] =
      .ok (Context.empty,
        [finish_target false [] 5 (DownloadTarget.new "linux-64/xtensor-123.tar.bz2".toList
          "conda-forge".toList "xtensor-123.tar.bz2".toList)]) ∧
    (finish_target false [] 5 (DownloadTarget.new "linux-64/xtensor-123.tar.bz2".toList
      "conda-forge".toList "xtensor-123.tar.bz2".toList)).expected_size = some 5 :=
  ⟨rfl,
    (expected_size_of_filesize uh_download false [] [] [] 5 Context.empty Context.empty
      ["conda-forge:linux-64/xtensor-123.tar.bz2".toList] _ rfl).2 _
      (List.mem_singleton.mpr rfl)⟩

/-- C6, as stated, fails for `-i 0`: 0 is an expected file size `n >= 0`, and the target
created has no `expected_size`. -/
theorem expected_size_zero_not_set :
    (0 : Int) ≥ 0 ∧
    (build_targets uh_download false [] [] [] 0 Context.empty
        ["conda-forge:linux-64/xtensor-123.tar.bz2".toList]).toOption.map
      (fun r => r.2.map DownloadTarget.expected_size) = some [none] := by
  decide

/-! ## The claim about the constructors of `Target` -/

/-- C7, as amended: immediately after construction by either constructor, from any
`DownloadTarget`, the `Target` is in state `kWAITING`, its `resume` is that of the
`DownloadTarget`, and its `original_offset` is -1. -/
theorem original_offset_after_construction (dl_target : DownloadTarget)
    (mirrors : List Mirror) :
    (Target.new dl_target).state = .kWAITING ∧
    (Target.new dl_target).resume = dl_target.resume ∧
    (Target.new dl_target).original_offset = -1 ∧
    (Target.new_with_mirrors dl_target mirrors).state = .kWAITING ∧
    (Target.new_with_mirrors dl_target mirrors).resume = dl_target.resume ∧
    (Target.new_with_mirrors dl_target mirrors).original_offset = -1 :=
  ⟨rfl, rfl, rfl, rfl, rfl, rfl⟩

/-- C7, as stated, fails: a `Target` just constructed is in state `kWAITING` and its
`original_offset` is negative, with either constructor. -/
theorem original_offset_negative_when_waiting :
    (Target.new (DownloadTarget.new [] [] [])).state = .kWAITING ∧
    (Target.new (DownloadTarget.new [] [] [])).original_offset < 0 ∧
    (Target.new_with_mirrors (DownloadTarget.new [] [] []) []).state = .kWAITING ∧
    (Target.new_with_mirrors (DownloadTarget.new [] [] []) []).original_offset < 0 := by
  decide

/-! ## The claim about `progress_callback` -/



theorem effective_calls_snoc (cs : List Call) (c : Call) :
    effective_calls (cs ++ [c]) = effective_calls cs ++ (if c.effective then [c] else []) := by
  unfold effective_calls
  rw [List.filter_append]
  by_cases h : c.effective = true <;> simp [List.filter, h]

theorem registered_snoc (cs : List Call) (c : Call) :
    registered (cs ++ [c]) = if c.effective then insert c.t (registered cs) else registered cs := by
  unfold registered
  rw [effective_calls_snoc]
  by_cases h : c.effective = true
  · simp only [h, if_true, List.map_append, List.map_cons, List.map_nil]
    ext t
    simp [or_comm]
  · simp [h]

theorem mem_registered (cs : List Call) (t : Nat) :
    t ∈ registered cs ↔ ∃ c ∈ effective_calls cs, c.t = t := by
  simp [registered]

theorem latest_done_snoc (cs : List Call) (c : Call) (t : Nat) :
    latest_done (cs ++ [c]) t =
      if c.effective = true ∧ c.t = t then some c.done else latest_done cs t := by
  unfold latest_done
  rw [effective_calls_snoc]
  by_cases h : c.effective = true
  · by_cases ht : c.t = t
    · simp [h, ht, List.find?]
    · simp [h, ht, List.find?]
  · simp [h]

theorem latest_done_eq_none (cs : List Call) (t : Nat) :
    latest_done cs t = none ↔ t ∉ registered cs := by
  unfold latest_done
  rw [mem_registered]
  simp [List.find?_eq_none]

theorem first_total_snoc (cs : List Call) (c : Call) (t : Nat) :
    first_total (cs ++ [c]) t =
      if t ∈ registered cs then first_total cs t
      else if c.effective = true ∧ c.t = t then c.total else 0 := by
  unfold first_total
  rw [effective_calls_snoc, List.find?_append]
  by_cases hr : t ∈ registered cs
  · rw [if_pos hr]
    obtain ⟨c0, hc0, ht0⟩ := (mem_registered cs t).mp hr
    cases hf : List.find? (fun c => decide (c.t = t)) (effective_calls cs) with
    | none =>
      rw [List.find?_eq_none] at hf
      exact absurd (by simpa using ht0) (hf c0 hc0)
    | some c1 => simp
  · rw [if_neg hr]
    have hf : List.find? (fun c => decide (c.t = t)) (effective_calls cs) = none := by
      rw [List.find?_eq_none]
      intro c0 hc0 ht0
      exact hr ((mem_registered cs t).mpr ⟨c0, hc0, by simpa using ht0⟩)
    rw [hf]
    by_cases h : c.effective = true
    · by_cases ht : c.t = t
      · simp [h, ht, List.find?]
      · simp [h, ht, List.find?]
    · simp [h]

theorem run_calls_snoc (g : GlobalProgress) (cs : List Call) (c : Call) :
    run_calls g (cs ++ [c]) = (progress_callback (run_calls g cs) c.t c.total c.done).2 := by
  simp [run_calls, List.foldl_append]

theorem to_size_t_add (s x : Int) : to_size_t ((to_size_t s : Int) + x) = to_size_t (s + x) := by
  unfold to_size_t
  have hpos : (0 : Int) ≤ s % 2 ^ 64 := Int.emod_nonneg _ (by norm_num)
  rw [Int.toNat_of_nonneg hpos,
    Int.emod_add_cancel_right x |>.mpr (Int.emod_emod_of_dvd s (dvd_refl _))]


/-- The sum, over the registered targets, of the totals of their first effective calls. -/
theorem sum_first_total_snoc (cs : List Call) (c : Call) :
    (∑ t in registered (cs ++ [c]), first_total (cs ++ [c]) t) =
      (∑ t in registered cs, first_total cs t) +
        if c.effective = true ∧ c.t ∉ registered cs then c.total else 0 := by
  have hold : (∑ t in registered cs, first_total (cs ++ [c]) t) =
      ∑ t in registered cs, first_total cs t := by
    apply Finset.sum_congr rfl
    intro t ht
    rw [first_total_snoc, if_pos ht]
  rw [registered_snoc]
  by_cases h : c.effective = true
  · by_cases hr : c.t ∈ registered cs
    · simp only [h, if_true, Finset.insert_eq_of_mem hr, hold]
      simp [hr]
    · simp only [h, if_true]
      rw [Finset.sum_insert hr, hold, first_total_snoc, if_neg hr]
      simp [h, hr, add_comm]
  · simp only [h]
    simp [hold]

theorem run_calls_invariant (cs : List Call) :
    (∀ t, mfind (run_calls GlobalProgress.init cs).total_done t = latest_done cs t) ∧
    ((run_calls GlobalProgress.init cs).total_done.map Prod.fst).Nodup ∧
    (run_calls GlobalProgress.init cs).total =
      to_size_t (∑ t in registered cs, first_total cs t) := by
  induction cs using List.reverseRecOn with
  | nil =>
    refine ⟨fun t => ?_, ?_, ?_⟩
    · simp [run_calls, GlobalProgress.init, mfind, latest_done, effective_calls]
    · simp [run_calls, GlobalProgress.init]
    · simp [run_calls, GlobalProgress.init, registered, effective_calls, to_size_t]
  | append_singleton cs c ih =>
    obtain ⟨hfind, hnodup, htotal⟩ := ih
    rw [run_calls_snoc, sum_first_total_snoc]
    by_cases he : c.effective = true
    · have hne : ¬ (c.total = 0 ∨ c.done = 0) := by
        simpa [Call.effective, not_or] using he
      have hreg : (mfind (run_calls GlobalProgress.init cs).total_done c.t).isNone = true ↔
          c.t ∉ registered cs := by
        rw [hfind, Option.isNone_iff_eq_none, latest_done_eq_none]
      have htot : c.total ≠ 0 := fun e => hne (Or.inl e)
      by_cases hr : c.t ∈ registered cs
      · have hn : ¬ (mfind (run_calls GlobalProgress.init cs).total_done c.t).isNone = true :=
          fun e => (hreg.mp e) hr
        simp only [progress_callback, if_neg hne, if_neg hn]
        refine ⟨fun t => ?_, nodup_keys_mset _ _ _ hnodup, ?_⟩
        · rw [mfind_mset, latest_done_snoc, hfind]
          by_cases ht : c.t = t <;> simp [he, ht]
        · simp [he, hr, htotal]
      · have hn : (mfind (run_calls GlobalProgress.init cs).total_done c.t).isNone = true :=
          hreg.mpr hr
        simp only [progress_callback, if_neg hne, if_pos hn, if_neg htot]
        refine ⟨fun t => ?_, nodup_keys_mset _ _ _ hnodup, ?_⟩
        · rw [mfind_mset, latest_done_snoc, hfind]
          by_cases ht : c.t = t <;> simp [he, ht]
        · simp only [he, hr, not_false_eq_true, and_self, if_true]
          rw [htotal, to_size_t_add]
    · have hz : c.total = 0 ∨ c.done = 0 := by
        by_contra hcon
        apply he
        simpa [Call.effective, not_or] using hcon
      simp only [progress_callback, if_pos hz]
      refine ⟨fun t => ?_, hnodup, ?_⟩
      · rw [latest_done_snoc, hfind]
        simp [he]
      · simp [he, htotal]


theorem effective_of_constant_totals (calls : List Call) (h : constant_totals calls) :
    effective_calls calls = calls := by
  unfold effective_calls
  rw [List.filter_eq_self]
  intro c hc
  obtain ⟨h1, h2, _⟩ := h c hc
  have h3 : c.total ≠ 0 := by omega
  have h4 : c.done ≠ 0 := by omega
  simp [Call.effective, h3, h4]

theorem done_le_first_total (calls : List Call) (h : constant_totals calls) (t : Nat)
    (ht : t ∈ registered calls) :
    0 < (latest_done calls t).getD 0 ∧ (latest_done calls t).getD 0 ≤ first_total calls t := by
  have he := effective_of_constant_totals calls h
  obtain ⟨c0, hc0, ht0⟩ := (mem_registered calls t).mp ht
  rw [he] at hc0
  unfold latest_done first_total
  rw [he]
  cases hl : List.find? (fun c => decide (c.t = t)) calls.reverse with
  | none =>
    rw [List.find?_eq_none] at hl
    exact absurd (by simpa using ht0) (hl c0 (List.mem_reverse.mpr hc0))
  | some cl =>
    cases hf : List.find? (fun c => decide (c.t = t)) calls with
    | none =>
      rw [List.find?_eq_none] at hf
      exact absurd (by simpa using ht0) (hf c0 hc0)
    | some cf =>
      have hlm : cl ∈ calls := List.mem_reverse.mp (List.mem_of_find?_eq_some hl)
      have hfm : cf ∈ calls := List.mem_of_find?_eq_some hf
      have hlt : cl.t = t := by simpa using List.find?_some hl
      have hft : cf.t = t := by simpa using List.find?_some hf
      obtain ⟨h1, h2, h3⟩ := h cl hlm
      have h4 : cf.total = cl.total := h3 cf hfm (by rw [hft, hlt])
      simp only [Option.map_some', Option.getD_some]
      exact ⟨h1, by rw [h4]; exact h2⟩

theorem keys_eq_registered (cs : List Call) :
    ((run_calls GlobalProgress.init cs).total_done.map Prod.fst).toFinset = registered cs := by
  ext t
  rw [List.mem_toFinset]
  have h1 := mfind_eq_none_iff (run_calls GlobalProgress.init cs).total_done t
  rw [(run_calls_invariant cs).1 t, latest_done_eq_none] at h1
  exact not_iff_not.mp h1.symm

theorem sum_total_done (cs : List Call) :
    ((run_calls GlobalProgress.init cs).total_done.map Prod.snd).sum =
      ∑ t in registered cs, (latest_done cs t).getD 0 := by
  rw [sum_values _ (run_calls_invariant cs).2.1, keys_eq_registered]
  apply Finset.sum_congr rfl
  intro t _
  rw [(run_calls_invariant cs).1 t]

theorem total_of_in_range (cs : List Call)
    (h0 : 0 ≤ ∑ t in registered cs, first_total cs t)
    (h1 : (∑ t in registered cs, first_total cs t) < 2 ^ 64) :
    ((run_calls GlobalProgress.init cs).total : Int) =
      ∑ t in registered cs, first_total cs t := by
  rw [(run_calls_invariant cs).2.2]
  unfold to_size_t
  rw [Int.toNat_of_nonneg (Int.emod_nonneg _ (by norm_num)), Int.emod_eq_of_lt h0 h1]

theorem to_int_le (q : ℚ) (n : Int) (h0 : 0 ≤ q) (h : q ≤ n) : to_int q ≤ n := by
  unfold to_int
  rw [if_pos h0]
  have : ((⌊q⌋ : Int) : ℚ) ≤ (n : ℚ) := le_trans (Int.floor_le q) h
  exact_mod_cast this

theorem fraction_bounds (cs : List Call) (hne : cs ≠ []) (h : constant_totals cs)
    (hlt : (∑ t in registered cs, first_total cs t) < 2 ^ 64) :
    0 < fraction (run_calls GlobalProgress.init cs) ∧
    fraction (run_calls GlobalProgress.init cs) ≤ 1 ∧
    bar_pos (run_calls GlobalProgress.init cs) ≤ 50 ∧
    percent (run_calls GlobalProgress.init cs) ≤ 100 := by
  have hreg : (registered cs).Nonempty := by
    obtain ⟨c, r, rfl⟩ := List.exists_cons_of_ne_nil hne
    refine ⟨c.t, (mem_registered _ _).mpr ⟨c, ?_, rfl⟩⟩
    rw [effective_of_constant_totals _ h]
    exact List.mem_cons_self _ _
  have hD0 : 0 < ∑ t in registered cs, (latest_done cs t).getD 0 :=
    Finset.sum_pos (fun t ht => (done_le_first_total cs h t ht).1) hreg
  have hDS : (∑ t in registered cs, (latest_done cs t).getD 0) ≤
      ∑ t in registered cs, first_total cs t :=
    Finset.sum_le_sum (fun t ht => (done_le_first_total cs h t ht).2)
  have hS0 : 0 < ∑ t in registered cs, first_total cs t := lt_of_lt_of_le hD0 hDS
  have htot := total_of_in_range cs (le_of_lt hS0) hlt
  have hfr : fraction (run_calls GlobalProgress.init cs) =
      ((∑ t in registered cs, (latest_done cs t).getD 0 : Int) : ℚ) /
        ((∑ t in registered cs, first_total cs t : Int) : ℚ) := by
    unfold fraction
    rw [sum_total_done, ← htot]
    norm_cast
  have hD0q : (0 : ℚ) < ((∑ t in registered cs, (latest_done cs t).getD 0 : Int) : ℚ) := by
    exact_mod_cast hD0
  have hS0q : (0 : ℚ) < ((∑ t in registered cs, first_total cs t : Int) : ℚ) := by
    exact_mod_cast hS0
  have hDSq : ((∑ t in registered cs, (latest_done cs t).getD 0 : Int) : ℚ) ≤
      ((∑ t in registered cs, first_total cs t : Int) : ℚ) := by
    exact_mod_cast hDS
  have hpos : 0 < fraction (run_calls GlobalProgress.init cs) := by
    rw [hfr]; exact div_pos hD0q hS0q
  have hle : fraction (run_calls GlobalProgress.init cs) ≤ 1 := by
    rw [hfr]; exact (div_le_one hS0q).mpr hDSq
  refine ⟨hpos, hle, ?_, ?_⟩
  · unfold bar_pos
    apply to_int_le _ 50 (by positivity)
    push_cast
    linarith
  · unfold percent
    apply to_int_le _ 100 (by positivity)
    push_cast
    linarith


/-- C8, as amended: every call returns 0; a call with `total == 0` or `done == 0` leaves
`global_progress` unchanged; after any sequence of calls from the zero-initialised global,
`total` is the sum, over the targets registered, of the totals of their first effective
calls, reduced modulo `2 ^ 64` (it is that sum when the sum is below `2 ^ 64` and not
negative), and `total_done[t]` is the `done` of the latest effective call of `t`; hence,
when the sequence is not empty, every target's calls use one total with
`0 < done <= total`, and the sum of the registered totals is below `2 ^ 64`, the fraction
lies in `(0, 1]`, the bar position is at most 50 and the percentage at most 100. -/
theorem progress_callback_sequence (calls : List Call) :
    (∀ g t total done, (progress_callback g t total done).1 = 0) ∧
    (∀ g t total done, total = 0 ∨ done = 0 → (progress_callback g t total done).2 = g) ∧
    (run_calls GlobalProgress.init calls).total =
      to_size_t (∑ t in registered calls, first_total calls t) ∧
    (0 ≤ ∑ t in registered calls, first_total calls t →
      (∑ t in registered calls, first_total calls t) < 2 ^ 64 →
      ((run_calls GlobalProgress.init calls).total : Int) =
        ∑ t in registered calls, first_total calls t) ∧
    (∀ t, mfind (run_calls GlobalProgress.init calls).total_done t = latest_done calls t) ∧
    (calls ≠ [] → constant_totals calls →
      (∑ t in registered calls, first_total calls t) < 2 ^ 64 →
      0 < fraction (run_calls GlobalProgress.init calls) ∧
      fraction (run_calls GlobalProgress.init calls) ≤ 1 ∧
      bar_pos (run_calls GlobalProgress.init calls) ≤ 50 ∧
      percent (run_calls GlobalProgress.init calls) ≤ 100) := by
  refine ⟨?_, ?_, (run_calls_invariant calls).2.2, total_of_in_range calls,
    (run_calls_invariant calls).1, fraction_bounds calls⟩
  · intro g t total done
    unfold progress_callback
    split_ifs <;> rfl
  · intro g t total done h
    unfold progress_callback
    rw [if_pos h]

/-- The registered totals of the example add up to 150. -/
theorem sum_first_total_example :
    (∑ t in registered calls_example, first_total calls_example t) = 150 := by
  decide

/-- C8, at an input: two targets of 100 and 50 bytes, the first reported at 10 and then at
60 bytes, the second at 50 bytes; the total is 150 and the fraction 110/150. -/
theorem progress_callback_sequence_witness :
    (run_calls GlobalProgress.init calls_example).total = 150 ∧
    0 < fraction (run_calls GlobalProgress.init calls_example) ∧
    fraction (run_calls GlobalProgress.init calls_example) ≤ 1 ∧
    bar_pos (run_calls GlobalProgress.init calls_example) ≤ 50 ∧
    percent (run_calls GlobalProgress.init calls_example) ≤ 100 :=
  ⟨by decide,
    (progress_callback_sequence calls_example).2.2.2.2.2 (by decide)
      (by unfold constant_totals; decide)
      (by rw [sum_first_total_example]; norm_num)⟩

/-- C8, as stated, fails when the totals overflow `std::size_t`: three targets of
`2 ^ 63 - 1` bytes each, every one reported complete in a single call, satisfy
`0 < done <= total` with one total for each target; the totals of the first effective
calls add up to `3 * (2 ^ 63 - 1)`, but `global_progress.total` is `2 ^ 63 - 3`, and the
fraction is greater than 1. -/
theorem progress_total_overflow :
    constant_totals calls_overflow ∧
    (∑ t in registered calls_overflow, first_total calls_overflow t) = 3 * (2 ^ 63 - 1) ∧
    (run_calls GlobalProgress.init calls_overflow).total = 2 ^ 63 - 3 ∧
    1 < fraction (run_calls GlobalProgress.init calls_overflow) := by
  have hrun : run_calls GlobalProgress.init calls_overflow =
      { done := 0, total := 2 ^ 63 - 3,
        total_done := [(1, 9223372036854775807), (2, 9223372036854775807),
          (3, 9223372036854775807)] } := by decide
  refine ⟨by unfold constant_totals; decide, by decide, by rw [hrun], ?_⟩
  rw [hrun]
  norm_num [fraction]

/-! ## The claim about `apply_jlap` -/



theorem apply_entries_append (patch : Json → Json → Except JErr Json) (h : Str) (d : Json)
    (a b : List Json) :
    apply_entries patch h d (a ++ b) =
      match apply_entries patch h d a with
      | .error e => .error e
      | .ok (h1, d1) => apply_entries patch h1 d1 b := by
  induction a generalizing h d with
  | nil => rfl
  | cons e es ih =>
    simp only [List.cons_append, apply_entries]
    cases he : apply_entry patch h d e with
    | error err => rfl
    | ok r =>
      obtain ⟨h1, d1⟩ := r
      exact ih h1 d1

theorem apply_jlap_eq_entries (patch : Json → Json → Except JErr Json) (h : Str) (d : Json)
    (patches : List Patch) :
    apply_jlap patch h d patches = apply_entries patch h d (entries patches) := by
  induction patches generalizing h d with
  | nil => rfl
  | cons p ps ih =>
    simp only [apply_jlap, entries, List.flatMap_cons]
    rw [apply_entries_append]
    cases hp : apply_entries patch h d p.patches with
    | error err => rfl
    | ok r =>
      obtain ⟨h1, d1⟩ := r
      exact ih h1 d1

theorem final_hash_cons (h : Str) (e : Json) (es : List Json) :
    final_hash h (e :: es) = final_hash (to_of e) es := by
  cases es with
  | nil => rfl
  | cons e1 es1 =>
    unfold final_hash
    rw [List.getLast?_cons_cons]
    cases hl : (e1 :: es1).getLast? with
    | none => simp at hl
    | some x => rfl

theorem applied_cons (h : Str) (e : Json) (es : List Json) :
    applied h (e :: es) = if from_is h e then e :: applied (to_of e) es else applied h es :=
  rfl

theorem applied_sublist (h : Str) (es : List Json) : (applied h es).Sublist es := by
  induction es generalizing h with
  | nil => exact List.Sublist.slnil
  | cons e es ih =>
    unfold applied
    split_ifs
    · exact (ih _).cons₂ e
    · exact (ih _).cons e

theorem hash_chain_applied (h : Str) (es : List Json) : hash_chain h (applied h es) := by
  induction es generalizing h with
  | nil => trivial
  | cons e es ih =>
    unfold applied
    split_ifs with hf
    · exact ⟨hf, ih _⟩
    · exact ih _

theorem applied_append (h : Str) (pre rest : List Json) :
    applied h (pre ++ rest) = applied h pre ++ applied (final_hash h (applied h pre)) rest := by
  induction pre generalizing h with
  | nil => rfl
  | cons e es ih =>
    rw [List.cons_append, applied_cons, applied_cons]
    split_ifs with hf
    · rw [ih, final_hash_cons, List.cons_append]
    · exact ih h

theorem get_string_ok (j : Json) (s : Str) : j.get_string = .ok s ↔ j = .str s := by
  cases j <;> simp [Json.get_string]

theorem apply_entries_ok_iff (patch : Json → Json → Except JErr Json) (h : Str) (d : Json)
    (es : List Json) (h1 : Str) (d1 : Json) :
    apply_entries patch h d es = .ok (h1, d1) ↔
      (∀ e ∈ applied h es, ∃ s, e.at "to".toList = .str s) ∧
      patch_all patch d (applied h es) = .ok d1 ∧
      h1 = final_hash h (applied h es) := by
  induction es generalizing h d with
  | nil =>
    simp only [apply_entries, applied, patch_all, final_hash, List.getLast?_nil,
      Except.ok.injEq, Prod.mk.injEq, List.not_mem_nil, false_implies, implies_true, true_and]
    constructor
    · rintro ⟨rfl, rfl⟩; exact ⟨rfl, rfl⟩
    · rintro ⟨rfl, rfl⟩; exact ⟨rfl, rfl⟩
  | cons e es ih =>
    unfold apply_entries applied
    by_cases hf : from_is h e = true
    · have hc : e.contains "from".toList = true ∧ (e.at "from".toList).eq_string h = true := by
        simpa [from_is] using hf
      rw [if_pos hf]
      unfold apply_entry
      rw [if_pos hc.1, if_pos hc.2]
      cases hto : (e.at "to".toList).get_string with
      | error err =>
        simp only [false_iff, not_and, reduceCtorEq]
        intro hall
        obtain ⟨s, hs⟩ := hall e (List.mem_cons_self _ _)
        rw [hs] at hto
        simp [Json.get_string] at hto
      | ok s =>
        have hs : e.at "to".toList = .str s := (get_string_ok _ _).mp hto
        have hts : to_of e = s := by unfold to_of; rw [hs]
        cases hp : patch d (e.at "patch".toList) with
        | error err =>
          constructor
          · intro hh; cases hh
          · rintro ⟨_, hpa, _⟩
            unfold patch_all at hpa
            rw [hp] at hpa
            cases hpa
        | ok d2 =>
          simp only [patch_all, hp, final_hash_cons, List.mem_cons, forall_eq_or_imp]
          rw [ih s d2, hts]
          constructor
          · rintro ⟨a, b, c⟩
            exact ⟨⟨⟨s, hs⟩, a⟩, b, c⟩
          · rintro ⟨⟨_, a⟩, b, c⟩
            exact ⟨a, b, c⟩
    · rw [if_neg hf]
      have hstep : apply_entry patch h d e = .ok (h, d) := by
        unfold apply_entry
        by_cases hc : e.contains "from".toList = true
        · rw [if_pos hc]
          have : ¬ (e.at "from".toList).eq_string h = true := by
            intro hh; exact hf (by unfold from_is; rw [hc, hh]; rfl)
          rw [if_neg this]
        · rw [if_neg hc]
      rw [hstep]
      exact ih h d


/-- C9: in `apply_jlap`, from the hash `h0` of `repodata.json` and the entries in file
order, the entries applied are entries of the file in their order and form a hash chain
from `h0`; an entry is applied exactly when its `"from"` is the current hash, the hash
left by the entries before it, and then the current hash becomes its `"to"`; an entry
without `"from"` or with another `"from"` leaves hash and document as they are; the loop
ends with hash `h` and document `d` exactly when every applied entry has a string `"to"`,
the patches of the applied entries apply one after the other to the document and give
`d`, and `h` is the `"to"` of the last applied entry (`h0` when none is applied); and when
none is applied the document is written unchanged. -/
theorem apply_jlap_hash_chain (patch : Json → Json → Except JErr Json) (h0 : Str) (doc : Json)
    (patches : List Patch) :
    (applied h0 (entries patches)).Sublist (entries patches) ∧
    hash_chain h0 (applied h0 (entries patches)) ∧
    (∀ pre e post, entries patches = pre ++ e :: post →
      applied h0 (entries patches) = applied h0 pre ++
        if from_is (final_hash h0 (applied h0 pre)) e then e :: applied (to_of e) post
        else applied (final_hash h0 (applied h0 pre)) post) ∧
    (∀ h d e, from_is h e = false → apply_entry patch h d e = .ok (h, d)) ∧
    (∀ h d, apply_jlap patch h0 doc patches = .ok (h, d) ↔
      (∀ e ∈ applied h0 (entries patches), ∃ s, e.at "to".toList = .str s) ∧
      patch_all patch doc (applied h0 (entries patches)) = .ok d ∧
      h = final_hash h0 (applied h0 (entries patches))) ∧
    (applied h0 (entries patches) = [] → apply_jlap patch h0 doc patches = .ok (h0, doc)) := by
  refine ⟨applied_sublist _ _, hash_chain_applied _ _, ?_, ?_, ?_, ?_⟩
  · intro pre e post hsplit
    rw [hsplit, applied_append, applied_cons]
  · intro h d e hf
    have h1 := (apply_entries_ok_iff patch h d [e] h d).mpr
    simp only [applied_cons, hf, applied, apply_entries] at h1
    have h2 := h1 ⟨by simp, rfl, rfl⟩
    cases he : apply_entry patch h d e with
    | error err => rw [he] at h2; cases h2
    | ok r =>
      obtain ⟨a, b⟩ := r
      rw [he] at h2
      exact h2
  · intro h d
    rw [apply_jlap_eq_entries]
    exact apply_entries_ok_iff patch h0 doc (entries patches) h d
  · intro hnil
    rw [apply_jlap_eq_entries]
    exact (apply_entries_ok_iff patch h0 doc (entries patches) h0 doc).mpr
      ⟨by rw [hnil]; simp, by rw [hnil]; rfl, by rw [hnil]; rfl⟩

/-- C9, at an input: of four entries the first and the last are applied; the final hash
is `h2` and the document is the one the last patch gives. -/
theorem apply_jlap_hash_chain_example :
    applied "h0".toList (entries patches_example) =
      [entry "h0".toList "h1".toList (.num 1), entry "h1".toList "h2".toList (.num 2)] ∧
    apply_jlap patch_replace "h0".toList (.num 0) patches_example =
      .ok ("h2".toList, .num 2) :=
  ⟨rfl, ((apply_jlap_hash_chain patch_replace "h0".toList (.num 0) patches_example).2.2.2.2.1
    "h2".toList (.num 2)).mpr ⟨by
      intro e he
      have : e = entry "h0".toList "h1".toList (.num 1) ∨
          e = entry "h1".toList "h2".toList (.num 2) := by
        have h1 : applied "h0".toList (entries patches_example) =
          [entry "h0".toList "h1".toList (.num 1), entry "h1".toList "h2".toList (.num 2)] :=
          rfl
        rw [h1] at he
        simpa using he
      rcases this with rfl | rfl
      · exact ⟨"h1".toList, rfl⟩
      · exact ⟨"h2".toList, rfl⟩, rfl, rfl⟩⟩

end Powerloader
